import Mathlib

/-!
# Verification of pathlib.h (segmented paths, wildcard matcher, glob walker)

Shallow embedding of the core of `pathlib.h`:

* the Path data model (`pathlib_from_str`, `pathlib_add_part`, `pathlib_to_str`),
* the stripped-down musl `fnmatch` wildcard matcher
  (`pathlib__pat_next`, `pathlib__str_next`, `pathlib__match_bracket`,
  `pathlib__fnmatch_internal`, `pathlib__fnmatch`),
* the directory-tree walker (`pathlib__recursive_glob`, `pathlib_glob`,
  `pathlib_rglob`) over an abstract filesystem collaborator.

Modelling conventions:

* C strings are `List Char`; the terminating NUL is the end of the list, so a
  faithful list never contains the character with code 0.  Reading the byte at
  the terminator is modelled by `Option`/default 0.
* `char` values read from pattern/name are modelled as their unsigned code
  (`Char.toNat`); theorems that depend on byte values restrict the inputs to
  ASCII (codes 1..127), where signed-`char` and unsigned-`char` platforms agree.
* The library never calls `setlocale`, so it runs in the C locale where
  `MB_CUR_MAX == 1`; the multibyte branches of the matcher collapse accordingly
  (in `pathlib__fnmatch_internal` the tail-location loop steps one byte at a
  time, and `mbtowc` on a single byte yields that byte value with length 1).
  `iswctype` is modelled by its C-locale ASCII classification.
* Machine-`unsigned` subtractions in `pathlib__match_bracket` are modelled with
  an explicit reduction modulo 2^32.
-/

namespace PathlibH

/-! ## Path data model

`Path` is an ordered sequence of string segments; we model the segment array as
`List (List Char)`. -/

/-- The two separator characters recognised by `pathlib_from_str`
(`*temp == '/' || *temp == '\\'`). -/
def isSep (c : Char) : Bool := c = '/' || c = '\\'

/-- `pathlib_from_str` (src/pathlib.h:706-746): copies the input string and
splits it in place at every `/` or `\`; every boundary produces a segment,
including empty ones, and the empty input produces the single empty segment. -/
def pathlib_from_str : List Char → List (List Char)
  | [] => [[]]
  | c :: rest =>
    if isSep c then [] :: pathlib_from_str rest
    else
      match pathlib_from_str rest with
      | seg :: segs => (c :: seg) :: segs
      | [] => [[c]]

/-- `pathlib_add_part` (src/pathlib.h:748-765): appends the given part verbatim
to the segment array (the capacity-growth arithmetic only reallocates storage
and does not change the segment sequence). -/
def pathlib_add_part (path : List (List Char)) (part : List Char) :
    List (List Char) :=
  path ++ [part]

/-- `pathlib_to_str` (src/pathlib.h:1003-1036): writes every segment followed by
a `/` into a buffer of size `sum of lengths + (size-1) + 1` and then places the
terminating NUL at index `total_size`, truncating the final separator.  The
empty Path renders to the empty string. -/
def pathlib_to_str (parts : List (List Char)) : List Char :=
  let total := (parts.map List.length).sum + (parts.length - 1)
  if parts.length = 0 then []
  else ((parts.map (fun seg => seg ++ ['/'])).flatten).take total

/-- Joining segments with single `/` separators: the closed form of what
`pathlib_to_str`'s write-then-truncate loop produces. -/
def joinSep : List (List Char) → List Char
  | [] => []
  | [seg] => seg
  | seg :: rest => seg ++ '/' :: joinSep rest

/-- Separator normalisation: rendering uses `/` for every separator. -/
def normSep (c : Char) : Char := if c = '\\' then '/' else c

theorem pathlib_from_str_ne_nil (s : List Char) : pathlib_from_str s ≠ [] := by
  match s with
  | [] => simp [pathlib_from_str]
  | c :: rest =>
    simp only [pathlib_from_str]
    split
    · simp
    · split <;> simp

theorem from_str_cons_sep (c : Char) (rest : List Char) (hc : isSep c = true) :
    pathlib_from_str (c :: rest) = [] :: pathlib_from_str rest := by
  simp [pathlib_from_str, hc]

theorem from_str_cons_not_sep (c : Char) (rest : List Char)
    (hc : isSep c = false) (seg : List Char) (segs : List (List Char))
    (heq : pathlib_from_str rest = seg :: segs) :
    pathlib_from_str (c :: rest) = (c :: seg) :: segs := by
  simp only [pathlib_from_str, hc, Bool.false_eq_true, if_false, heq]

theorem joinSep_cons_cons (seg : List Char) (segs : List (List Char)) (c : Char) :
    joinSep ((c :: seg) :: segs) = c :: joinSep (seg :: segs) := by
  match segs with
  | [] => rfl
  | _ :: _ => simp [joinSep]

theorem joinSep_cons_of_ne_nil (seg : List Char) (segs : List (List Char))
    (h : segs ≠ []) : joinSep (seg :: segs) = seg ++ '/' :: joinSep segs := by
  match segs with
  | [] => exact absurd rfl h
  | _ :: _ => rfl

theorem getLast?_cons_ne_nil {α : Type} (a : α) (l : List α) (h : l ≠ []) :
    (a :: l).getLast? = l.getLast? := by
  cases l with
  | nil => exact absurd rfl h
  | cons x xs => exact List.getLast?_cons_cons ..

theorem take_flatten_eq_joinSep :
    ∀ (parts : List (List Char)), parts ≠ [] →
      ((parts.map (fun seg => seg ++ ['/'])).flatten).take
        ((parts.map List.length).sum + (parts.length - 1)) = joinSep parts
  | [seg], _ => by
    simp only [List.map_cons, List.map_nil, List.flatten_cons, List.flatten_nil,
      List.append_nil, List.sum_cons, List.sum_nil, List.length_cons,
      List.length_nil, joinSep, Nat.add_zero, Nat.zero_add, Nat.sub_self]
    exact List.take_left seg ['/']
  | seg :: seg' :: rest, _ => by
    have ih := take_flatten_eq_joinSep (seg' :: rest) (by simp)
    simp only [List.map_cons, List.flatten_cons, List.sum_cons,
      List.length_cons] at ih ⊢
    rw [show seg.length + (seg'.length + (rest.map List.length).sum) +
          (rest.length + 1 + 1 - 1) =
        (seg ++ ['/']).length + (seg'.length + (rest.map List.length).sum +
          (rest.length + 1 - 1)) by simp [List.length_append]; omega,
      List.take_append, ih,
      joinSep_cons_of_ne_nil seg (seg' :: rest) (by simp)]
    simp

theorem pathlib_to_str_eq_joinSep (parts : List (List Char)) :
    pathlib_to_str parts = joinSep parts := by
  match parts with
  | [] => rfl
  | p :: ps =>
    simp only [pathlib_to_str]
    rw [if_neg (by simp)]
    exact take_flatten_eq_joinSep (p :: ps) (by simp)

theorem normSep_of_isSep {c : Char} (h : isSep c = true) : normSep c = '/' := by
  simp only [isSep, Bool.or_eq_true, decide_eq_true_eq] at h
  rcases h with h | h <;> simp [normSep, h]

theorem normSep_of_not_isSep {c : Char} (h : isSep c = false) : normSep c = c := by
  simp only [isSep, Bool.or_eq_true, decide_eq_true_eq] at h
  simp only [normSep]
  rw [if_neg]
  intro hc
  rw [hc] at h
  simp at h

/-- Core of the round trip: joining the segments of a split with `/` recovers
the input, separator-normalised, whenever the split has no empty segment. -/
theorem joinSep_from_str (s : List Char)
    (h : ∀ seg ∈ pathlib_from_str s, seg ≠ []) :
    joinSep (pathlib_from_str s) = s.map normSep := by
  match s with
  | [] => exact absurd rfl (h [] (by simp [pathlib_from_str]))
  | c :: rest =>
    have hc : isSep c = false := by
      cases hcc : isSep c
      · rfl
      · exact absurd rfl (h [] (by rw [from_str_cons_sep c rest hcc]; simp))
    obtain ⟨seg, segs, heq⟩ :=
      List.exists_cons_of_ne_nil (pathlib_from_str_ne_nil rest)
    have hfs := from_str_cons_not_sep c rest hc seg segs heq
    have htail : joinSep (seg :: segs) = rest.map normSep := by
      match rest with
      | [] =>
        have h0 : pathlib_from_str ([] : List Char) = [[]] := rfl
        rw [h0] at heq
        injection heq with h1 h2
        rw [← h1, ← h2]
        rfl
      | d :: rest2 =>
        cases hd : isSep d with
        | true =>
          rw [from_str_cons_sep d rest2 hd] at heq
          injection heq with h1 h2
          rw [← h1, joinSep_cons_of_ne_nil [] segs
            (by rw [← h2]; exact pathlib_from_str_ne_nil rest2)]
          have ih := joinSep_from_str rest2 (fun x hx => h x (by
            rw [hfs]
            exact List.mem_cons_of_mem _ (by rw [← h2]; exact hx)))
          rw [← h2, ih]
          simp [normSep_of_isSep hd]
        | false =>
          obtain ⟨s', segs', heq'⟩ :=
            List.exists_cons_of_ne_nil (pathlib_from_str_ne_nil rest2)
          have hfs2 := from_str_cons_not_sep d rest2 hd s' segs' heq'
          have hss : seg :: segs = (d :: s') :: segs' := heq.symm.trans hfs2
          have hsegs : segs = segs' := by injection hss
          have ih := joinSep_from_str (d :: rest2) (fun x hx => by
            rw [hfs2] at hx
            rcases List.mem_cons.mp hx with hx | hx
            · subst hx; simp
            · exact h x (by
                rw [hfs]
                exact List.mem_cons_of_mem _ (hsegs ▸ hx)))
          rw [← heq, ih]
    rw [hfs, joinSep_cons_cons, htail, List.map_cons, normSep_of_not_isSep hc]

/-- Number of segments produced by parsing: one more than the number of
separator characters. -/
theorem pathlib_from_str_length (s : List Char) :
    (pathlib_from_str s).length = s.countP isSep + 1 := by
  induction s with
  | nil => simp [pathlib_from_str]
  | cons c rest ih =>
    cases hc : isSep c with
    | true =>
      rw [from_str_cons_sep c rest hc]
      simp [List.countP_cons, hc, ih]
    | false =>
      obtain ⟨seg, segs, heq⟩ :=
        List.exists_cons_of_ne_nil (pathlib_from_str_ne_nil rest)
      rw [from_str_cons_not_sep c rest hc seg segs heq]
      rw [heq] at ih
      simp only [List.length_cons] at ih ⊢
      simp [List.countP_cons, hc, ih]

/-- If the input ends in a separator, the parse ends in an empty segment. -/
theorem from_str_getLast_of_sep (s : List Char) (d : Char)
    (hd : s.getLast? = some d) (hsep : isSep d = true) :
    (pathlib_from_str s).getLast? = some [] := by
  match s with
  | [] => simp at hd
  | [c] =>
    simp only [List.getLast?_singleton, Option.some.injEq] at hd
    subst hd
    rw [from_str_cons_sep c [] hsep]
    rfl
  | c :: c' :: rest =>
    have hd' : (c' :: rest).getLast? = some d := by
      rw [← hd]
      exact (List.getLast?_cons_cons ..).symm
    have ih := from_str_getLast_of_sep (c' :: rest) d hd' hsep
    obtain ⟨seg, segs, heq⟩ :=
      List.exists_cons_of_ne_nil (pathlib_from_str_ne_nil (c' :: rest))
    have hlen : (pathlib_from_str (c' :: rest)).length ≥ 2 := by
      rw [pathlib_from_str_length]
      have : 0 < (c' :: rest).countP isSep := by
        refine List.countP_pos_iff.mpr ⟨d, ?_, hsep⟩
        exact List.mem_of_mem_getLast? hd'
      omega
    have hsegs : segs ≠ [] := by
      intro hnil
      rw [heq, hnil] at hlen
      simp at hlen
    cases hc : isSep c with
    | true =>
      rw [from_str_cons_sep c (c' :: rest) hc,
        getLast?_cons_ne_nil _ _ (pathlib_from_str_ne_nil _)]
      exact ih
    | false =>
      rw [from_str_cons_not_sep c (c' :: rest) hc seg segs heq,
        getLast?_cons_ne_nil _ _ hsegs]
      rw [heq, getLast?_cons_ne_nil _ _ hsegs] at ih
      exact ih

/-! ## Wildcard pattern matcher (stripped musl fnmatch)

The matcher operates on a pattern and a name, both NUL-terminated C strings.
`pathlib__fnmatch` calls `pathlib__fnmatch_internal(pat, -1, str, -1)`: the
initial length arguments are `SIZE_MAX`, so every `k<m` bound in the first
pass is limited only by the terminating NUL, and the second pass recomputes
the exact lengths with `strlen`; in both cases the effective bound is the
length of the remaining list. -/

/-- Result of `pathlib__pat_next`: the special negative codes `END`, `STAR`,
`QUESTION`, `BRACKET`, or a (possibly escaped) literal character.  This
stripped `pat_next` never produces musl's `UNMATCHABLE` code, so the
corresponding switch arms of `pathlib__fnmatch_internal` are dead code and not
modelled. -/
inductive PTok where
  | tEnd
  | star
  | question
  | bracket
  | lit (c : Char)
deriving DecidableEq

/-- The `[: :]` / `[. .]` / `[= =]` terminator scan of `pathlib__pat_next`
(src/pathlib.h:2310): `while (k<m && pat[k] && (pat[k-1]!=z || pat[k]!=']'))
k++;`. -/
def classScan (pat : List Char) (z : Char) (k : Nat) : Nat :=
  if k < pat.length then
    if pat[k - 1]? = some z ∧ pat[k]? = some ']' then k
    else classScan pat z (k + 1)
  else k
termination_by pat.length - k

theorem classScan_ge (pat : List Char) (z : Char) (k : Nat) :
    k ≤ classScan pat z k := by
  induction k using classScan.induct pat z with
  | case1 k hk hstop => rw [classScan, if_pos hk, if_pos hstop]
  | case2 k hk hstop ih =>
    rw [classScan, if_pos hk, if_neg hstop]
    omega
  | case3 k hk => rw [classScan, if_neg hk]

/-- The cursor adjustment `k += 2; if (k<m && pat[k]) k++;` before the class
terminator scan in `pathlib__pat_next` (src/pathlib.h:2308-2309). -/
def classStart (pat : List Char) (k : Nat) : Nat :=
  if k + 2 < pat.length then k + 3 else k + 2

theorem classStart_ge (pat : List Char) (k : Nat) : k + 2 ≤ classStart pat k := by
  rw [classStart]
  split <;> omega

/-- The bracket-expression scan of `pathlib__pat_next` (src/pathlib.h:2305-2313):
advance `k` to the closing `]`, skipping well-formed `[: :]`-style classes;
evaluates to `pat.length` when the bracket is unterminated (`k==m || !pat[k]`,
including a `break` out of an unterminated class). -/
def brScan (pat : List Char) (k : Nat) : Nat :=
  if k < pat.length then
    if pat[k]? = some ']' then k
    else if pat[k]? = some '[' ∧ (pat[k + 1]? = some ':' ∨
        pat[k + 1]? = some '.' ∨ pat[k + 1]? = some '=') then
      -- z = pat[k+1], then the `[: :]`-terminator scan; a scan that runs to
      -- the end is the `break` with `k==m`
      if classScan pat ((pat[k + 1]?).getD ' ') (classStart pat k) =
          pat.length then
        pat.length
      else
        brScan pat (classScan pat ((pat[k + 1]?).getD ' ') (classStart pat k) + 1)
    else brScan pat (k + 1)
  else k
termination_by pat.length - k
decreasing_by
  · have h1 := classStart_ge pat k
    have h2 := classScan_ge pat ((pat[k + 1]?).getD ' ') (classStart pat k)
    omega
  · omega

/-- `pathlib__pat_next` (src/pathlib.h:2290-2327): decode the next pattern
unit and the number of bytes it occupies. -/
def pathlib__pat_next (pat : List Char) : PTok × Nat :=
  match pat with
  | [] => (.tEnd, 0)
  | c :: rest =>
    if c = '\\' ∧ rest ≠ [] then
      -- *step = 2; pat++; goto escaped;  (the escaped byte is read literally)
      (.lit (rest.headD '\\'), 2)
    else if c = '[' then
      let k1 : Nat := if pat[1]? = some '^' ∨ pat[1]? = some '!' then 2 else 1
      let k2 : Nat := if pat[k1]? = some ']' then k1 + 1 else k1
      let ke := brScan pat k2
      if ke = pat.length then (.lit '[', 1)   -- unterminated: literal '['
      else (.bracket, ke + 1)
    else if c = '*' then (.star, 1)
    else if c = '?' then (.question, 1)
    else (.lit c, 1)

/-- `pathlib__str_next` (src/pathlib.h:2281-2288): read one byte of the name
(unsigned-`char` model); 0 with step 0 at the end of the string. -/
def pathlib__str_next (str : List Char) : Int × Nat :=
  match str with
  | [] => (0, 0)
  | c :: _ => ((c.toNat : Int), 1)

/-- `pathlib__wctype` (src/pathlib.h:2266-2279): 1-based index of a POSIX class
name in the fixed table, 0 if unknown. -/
def pathlib__wctype (s : List Char) : Nat :=
  if s = "alnum".toList then 1
  else if s = "alpha".toList then 2
  else if s = "blank".toList then 3
  else if s = "cntrl".toList then 4
  else if s = "digit".toList then 5
  else if s = "graph".toList then 6
  else if s = "lower".toList then 7
  else if s = "print".toList then 8
  else if s = "punct".toList then 9
  else if s = "space".toList then 10
  else if s = "upper".toList then 11
  else if s = "xdigit".toList then 12
  else 0

/-- Modelled from the spec of C-locale `iswctype` restricted to ASCII
codepoints: the twelve POSIX classes, indexed in the order of
`pathlib__wctype`'s table. -/
def iswctypeAscii (k : Int) (t : Nat) : Bool :=
  let dig := decide (48 ≤ k ∧ k ≤ 57)
  let upp := decide (65 ≤ k ∧ k ≤ 90)
  let low := decide (97 ≤ k ∧ k ≤ 122)
  let alpha := upp || low
  let alnum := alpha || dig
  let graph := decide (33 ≤ k ∧ k ≤ 126)
  match t with
  | 1 => alnum
  | 2 => alpha
  | 3 => decide (k = 32 ∨ k = 9)
  | 4 => decide ((0 ≤ k ∧ k ≤ 31) ∨ k = 127)
  | 5 => dig
  | 6 => graph
  | 7 => low
  | 8 => decide (32 ≤ k ∧ k ≤ 126)
  | 9 => graph && !alnum
  | 10 => decide (k = 32 ∨ (9 ≤ k ∧ k ≤ 13))
  | 11 => upp
  | 12 => dig || decide (97 ≤ k ∧ k ≤ 102) || decide (65 ≤ k ∧ k ≤ 70)
  | _ => false

/-- Reduction of a C `int` difference to 32-bit `unsigned`, for the
`(unsigned)k-wc <= (unsigned)wc2-wc` range tests. -/
def u32 (x : Int) : Nat := (x % 4294967296).toNat

/-- The scanning loop of `pathlib__match_bracket` (src/pathlib.h:2345-2380) at
position `i` of the bracket expression `pl` (which begins at the `[`), with
`wc` the most recently read literal (the lower bound of a following range) and
`inv` the negation flag.  Single-byte locale model: `mbtowc` on one byte gives
that byte value with length 1, so after a range test the cursor advances by
one and re-reads the upper-bound byte as a literal, exactly as the C does with
`p += l-1; continue;` and the loop's `p++`.  Running off the end of the list
models reaching the terminating NUL, which cannot happen for the well-formed
bracket tokens `pathlib__pat_next` produces; those arms exit with `inv`. -/
theorem lt_length_of_some {α : Type} {l : List α} {i : Nat} {c : α}
    (h : l[i]? = some c) : i < l.length :=
  (List.getElem?_eq_some_iff.mp h).1

def mbLoop (pl : List Char) (k kfold : Int) (inv : Bool) (wc : Int) (i : Nat) :
    Bool :=
  match hme : pl[i]? with
  | none => inv
  | some c =>
    if c = ']' then inv
    else if c = '-' ∧ pl[i + 1]? ≠ some ']' then
      match pl[i + 1]? with
      | none => inv
      | some c2 =>
        let wc2 : Int := c2.toNat
        if wc ≤ wc2 ∧ (u32 (k - wc) ≤ u32 (wc2 - wc) ∨
            u32 (kfold - wc) ≤ u32 (wc2 - wc)) then !inv
        else mbLoop pl k kfold inv wc (i + 1)
    else if c = '[' ∧ (pl[i + 1]? = some ':' ∨ pl[i + 1]? = some '.' ∨
        pl[i + 1]? = some '=') then
      let z := (pl[i + 1]?).getD ' '
      let j := classScan pl z (i + 3)
      if j < pl.length then
        if z = ':' ∧ j - 1 - (i + 2) < 16 then
          let name := (pl.drop (i + 2)).take (j - 1 - (i + 2))
          if iswctypeAscii k (pathlib__wctype name) ∨
              iswctypeAscii kfold (pathlib__wctype name) then !inv
          else mbLoop pl k kfold inv wc (j + 1)
        else mbLoop pl k kfold inv wc (j + 1)
      else inv
    else
      let wcN : Int := c.toNat
      if wcN = k ∨ wcN = kfold then !inv
      else mbLoop pl k kfold inv wcN (i + 1)
termination_by pl.length - i
decreasing_by
  · have := lt_length_of_some hme
    omega
  · have hi : i < pl.length := lt_length_of_some hme
    have hj := classScan_ge pl ((pl[i + 1]?).getD ' ') (i + 3)
    omega
  · have hi : i < pl.length := lt_length_of_some hme
    have hj := classScan_ge pl ((pl[i + 1]?).getD ' ') (i + 3)
    omega
  · have := lt_length_of_some hme
    omega

/-- `pathlib__match_bracket` (src/pathlib.h:2329-2382), for a bracket
expression `pl` that begins at the `[`.  Both call sites pass `kfold = k`. -/
def pathlib__match_bracket (pl : List Char) (k kfold : Int) : Bool :=
  let inv : Bool := decide (pl[1]? = some '^' ∨ pl[1]? = some '!')
  let i1 : Nat := if inv then 2 else 1
  if pl[i1]? = some ']' then
    if k = ((']'.toNat : Nat) : Int) then !inv
    else mbLoop pl k kfold inv ((']'.toNat : Nat) : Int) (i1 + 1)
  else if pl[i1]? = some '-' then
    if k = (('-'.toNat : Nat) : Int) then !inv
    else mbLoop pl k kfold inv (('-'.toNat : Nat) : Int) (i1 + 1)
  else
    -- wc = p[-1]
    mbLoop pl k kfold inv ((((pl[i1 - 1]?).getD ' ').toNat : Int)) i1

/-- The `(c != QUESTION && k != c && k != c)` comparison of
`pathlib__fnmatch_internal`, recast over decoded tokens: `true` when the
non-`BRACKET` token `c` accepts the character code `k`.  `END`, `STAR` and
`BRACKET` are negative codes, and every use site has `k > 0`, so they never
compare equal to `k`. -/
def litMatch (c : PTok) (k : Int) : Bool :=
  match c with
  | .question => true
  | .lit ch => k = (ch.toNat : Int)
  | _ => false

/-- Result of the leading loop of `pathlib__fnmatch_internal`. -/
inductive Phase1Res where
  | nomatch
  | matched
  | toStar (pat str : List Char)
deriving DecidableEq

theorem pat_next_step_pos (pat : List Char) (h : pat ≠ []) :
    1 ≤ (pathlib__pat_next pat).2 := by
  match pat with
  | c :: rest =>
    simp only [pathlib__pat_next]
    repeat' split
    all_goals simp

/-- The first loop of `pathlib__fnmatch_internal` (src/pathlib.h:2390-2415):
consume units until the first `*` (`toStar` carries the pattern after the `*`
and the unconsumed name), or the simultaneous end of pattern and name
(`matched`), or a mismatch / premature end (`nomatch`). -/
def phase1 (pat str : List Char) : Phase1Res :=
  let t := pathlib__pat_next pat
  if t.1 = .star then .toStar (pat.drop 1) str
  else
    match str with
    | [] => if t.1 = .tEnd then .matched else .nomatch
    | ch :: rest =>
      let k : Int := ch.toNat
      if k ≤ 0 then (if t.1 = .tEnd then .matched else .nomatch)
      else if t.1 = .bracket then
        if pathlib__match_bracket pat k k then phase1 (pat.drop t.2) rest
        else .nomatch
      else
        if litMatch t.1 k then phase1 (pat.drop t.2) rest else .nomatch
termination_by str.length
decreasing_by all_goals simp

/-- The last-`*` location loop of `pathlib__fnmatch_internal`
(src/pathlib.h:2421-2434): scan the remaining pattern unit by unit, resetting
the suffix unit count at each `*`; evaluates to the unit count of, and the
suffix after, the last `*` (with `ptail` initialised to the current
pattern). -/
def tailScan (p : List Char) (tailcnt : Nat) (ptail : List Char) :
    Nat × List Char :=
  match p with
  | [] => (tailcnt, ptail)
  | c :: rest =>
    let t := pathlib__pat_next (c :: rest)
    if t.1 = .star then tailScan ((c :: rest).drop t.2) 0 ((c :: rest).drop 1)
    else tailScan ((c :: rest).drop t.2) (tailcnt + 1) ptail
termination_by p.length
decreasing_by
  all_goals
    have := pat_next_step_pos (c :: rest) (by simp)
    simp [List.length_drop]
    omega

/-- The tail-check loop of `pathlib__fnmatch_internal`
(src/pathlib.h:2455-2470): match the suffix after the last `*` unit by unit
against the final characters of the name. -/
def tailMatch (p s : List Char) : Bool :=
  let t := pathlib__pat_next p
  match s with
  | [] => decide (t.1 = .tEnd)
  | ch :: rest =>
    let k : Int := ch.toNat
    if k ≤ 0 then decide (t.1 = .tEnd)
    else if t.1 = .bracket then
      pathlib__match_bracket p k k && tailMatch (p.drop t.2) rest
    else
      litMatch t.1 k && tailMatch (p.drop t.2) rest
termination_by s.length
decreasing_by all_goals simp

/-- Result of one component attempt in the final loop of
`pathlib__fnmatch_internal` (src/pathlib.h:2480-2499): a `*` commits the
component (`star` carries the new region cursors), the name region running out
hard-fails the whole match (`return FNM_NOMATCH`), and a unit mismatch soft
fails (the caller slides the name cursor and retries). -/
inductive CompRes where
  | star (pat str : List Char)
  | fail
  | hardFail
deriving DecidableEq

/-- The inner component loop of `pathlib__fnmatch_internal`
(src/pathlib.h:2480-2499). -/
def compTry (p s : List Char) : CompRes :=
  let t := pathlib__pat_next p
  if t.1 = .star then .star (p.drop t.2) s
  else
    match s with
    | [] => .hardFail
    | ch :: rest =>
      let k : Int := ch.toNat
      if k = 0 then .hardFail
      else if t.1 = .bracket then
        if pathlib__match_bracket p k k then compTry (p.drop t.2) rest
        else .fail
      else if litMatch t.1 k then compTry (p.drop t.2) rest else .fail
termination_by s.length
decreasing_by all_goals simp

theorem compTry_star_length (s : List Char) :
    ∀ (p p' s' : List Char), compTry p s = .star p' s' →
      p'.length < p.length ∧ s'.length ≤ s.length := by
  induction s with
  | nil =>
    intro p p' s' h
    rw [compTry] at h
    split at h
    · rename_i hstar
      have hne : p ≠ [] := by
        intro hp
        subst hp
        simp [pathlib__pat_next] at hstar
      have hstep := pat_next_step_pos p hne
      injection h with h1 h2
      subst h1 h2
      refine ⟨?_, le_refl _⟩
      have : p.length ≠ 0 := by simpa using hne
      simp [List.length_drop]
      omega
    · simp at h
  | cons ch rest ih =>
    intro p p' s' h
    rw [compTry] at h
    split at h
    · rename_i hstar
      have hne : p ≠ [] := by
        intro hp
        subst hp
        simp [pathlib__pat_next] at hstar
      have hstep := pat_next_step_pos p hne
      injection h with h1 h2
      subst h1 h2
      refine ⟨?_, le_refl _⟩
      have : p.length ≠ 0 := by simpa using hne
      simp [List.length_drop]
      omega
    · simp only at h
      split at h
      · simp at h
      · split at h
        · split at h
          · have := ih _ _ _ h
            have hd : (List.drop (pathlib__pat_next p).2 p).length ≤ p.length := by
              rw [List.length_drop]; omega
            refine ⟨lt_of_lt_of_le this.1 hd, ?_⟩
            calc s'.length ≤ rest.length := this.2
              _ ≤ (ch :: rest).length := by simp
          · simp at h
        · split at h
          · have := ih _ _ _ h
            have hd : (List.drop (pathlib__pat_next p).2 p).length ≤ p.length := by
              rw [List.length_drop]; omega
            refine ⟨lt_of_lt_of_le this.1 hd, ?_⟩
            calc s'.length ≤ rest.length := this.2
              _ ≤ (ch :: rest).length := by simp
          · simp at h

/-- The outer component loop of `pathlib__fnmatch_internal`
(src/pathlib.h:2477-2506) on the regions strictly between the first and last
`*`.  After a soft component failure the name cursor advances by one character
and the loop retries; the invalid-byte skip of the C code
(src/pathlib.h:2505) is unreachable in the unsigned-`char` model (a soft
failure implies a nonempty name region and `pathlib__str_next` is never
negative), and an embedded NUL, which no C string can contain, maps to
failure. -/
def phase3 (pat str : List Char) : Bool :=
  match pat with
  | [] => true
  | c :: prest =>
    match hc : compTry (c :: prest) str with
    | .star pat' str' => phase3 pat' str'
    | .hardFail => false
    | .fail =>
      match str with
      | [] => false
      | ch :: rest =>
        if (ch.toNat : Int) > 0 then phase3 (c :: prest) rest else false
termination_by pat.length + str.length
decreasing_by
  all_goals
    first
      | (have hcs := compTry_star_length str _ pat' str' hc; omega)
      | (simp; omega)
      | simp

/-- `pathlib__fnmatch` (src/pathlib.h:2511-2513), i.e.
`pathlib__fnmatch_internal(pat, -1, str, -1)` (src/pathlib.h:2384-2509);
`true` models a return of 0 (match).  The tail-location loop
(src/pathlib.h:2447-2450) steps one byte at a time because `MB_CUR_MAX == 1`
in the untouched C locale, so `stail` is exactly the final `tailcnt`
characters of the remaining name, and the `if (tailcnt)` check after that loop
cannot fire once `n < tailcnt` has been excluded. -/
def pathlib__fnmatch (pat str : List Char) : Bool :=
  match phase1 pat str with
  | .matched => true
  | .nomatch => false
  | .toStar pat' str' =>
    let tp := tailScan pat' 0 pat'
    let n := str'.length
    if n < tp.1 then false
    else
      let stail := str'.drop (n - tp.1)
      if tailMatch tp.2 stail then
        phase3 (pat'.take (pat'.length - tp.2.length)) (str'.take (n - tp.1))
      else false

/-! ### Basic facts about pattern decoding -/

theorem char_toNat_inj {a b : Char} (h : a.toNat = b.toNat) : a = b :=
  Char.ext (UInt32.ext h)

theorem pat_next_star (rest : List Char) :
    pathlib__pat_next ('*' :: rest) = (.star, 1) := by
  simp [pathlib__pat_next]

theorem pat_next_lit_of_plain (c : Char) (rest : List Char) (h1 : c ≠ '\\')
    (h2 : c ≠ '[') (h3 : c ≠ '*') (h4 : c ≠ '?') :
    pathlib__pat_next (c :: rest) = (.lit c, 1) := by
  simp [pathlib__pat_next, h1, h2, h3, h4]

theorem pat_next_ne_tEnd (c : Char) (rest : List Char) :
    (pathlib__pat_next (c :: rest)).1 ≠ .tEnd := by
  simp only [pathlib__pat_next]
  repeat' split
  all_goals simp

theorem pat_next_star_iff (c : Char) (rest : List Char) :
    (pathlib__pat_next (c :: rest)).1 = .star ↔ c = '*' := by
  simp only [pathlib__pat_next]
  repeat' split
  all_goals simp_all

theorem pat_next_star_step (p : List Char)
    (h : (pathlib__pat_next p).1 = .star) : (pathlib__pat_next p).2 = 1 := by
  match p with
  | [] => simp [pathlib__pat_next] at h
  | c :: rest =>
    have hc : c = '*' := (pat_next_star_iff c rest).mp h
    subst hc
    rw [pat_next_star]

/-- A pattern with none of the four wildcard metacharacters. -/
def noWildcard (p : List Char) : Prop :=
  ∀ c ∈ p, c ≠ '*' ∧ c ≠ '?' ∧ c ≠ '[' ∧ c ≠ '\\'

instance (p : List Char) : Decidable (noWildcard p) := by
  unfold noWildcard; infer_instance

/-- A list that is a faithful model of an ASCII C string: no embedded NUL and
every byte below 128, where signed and unsigned `char` agree. -/
def asciiStr (s : List Char) : Prop := ∀ c ∈ s, 1 ≤ c.toNat ∧ c.toNat ≤ 127

instance (s : List Char) : Decidable (asciiStr s) := by
  unfold asciiStr; infer_instance

theorem phase1_no_wildcard (n : List Char) : ∀ (p : List Char),
    noWildcard p → (∀ c ∈ p, c.toNat ≠ 0) → (∀ c ∈ n, c.toNat ≠ 0) →
    phase1 p n = (if p = n then .matched else .nomatch) := by
  induction n with
  | nil =>
    intro p hp _ _
    match p with
    | [] => simp [phase1, pathlib__pat_next]
    | c :: prest =>
      obtain ⟨h3, h4, h2, h1⟩ := hp c (List.mem_cons_self ..)
      rw [phase1]
      simp [pat_next_lit_of_plain c prest h1 h2 h3 h4]
  | cons ch nrest ih =>
    intro p hp hp0 hn0
    have hk : ¬((ch.toNat : Int) ≤ 0) := by
      have := hn0 ch (List.mem_cons_self ..)
      omega
    match p with
    | [] =>
      rw [phase1]
      simp [pathlib__pat_next, litMatch, hk]
    | c :: prest =>
      obtain ⟨h3, h4, h2, h1⟩ := hp c (List.mem_cons_self ..)
      have hlit := pat_next_lit_of_plain c prest h1 h2 h3 h4
      rw [phase1]
      simp only [hlit]
      by_cases hceq : ch = c
      · subst hceq
        have ihr := ih prest (fun x hx => hp x (List.mem_cons_of_mem _ hx))
          (fun x hx => hp0 x (List.mem_cons_of_mem _ hx))
          (fun x hx => hn0 x (List.mem_cons_of_mem _ hx))
        simp [litMatch, hk, ihr]
      · have hnee : ¬((ch.toNat : Int) = (c.toNat : Int)) := by
          intro hcc
          exact hceq (char_toNat_inj (by omega))
        have hcond : ¬(c = ch ∧ prest = nrest) := by
          rintro ⟨hcc, -⟩
          exact hceq hcc.symm
        simp [litMatch, hk, hnee, hcond]

/-- C1: for a pattern containing none of the wildcard metacharacters `*`, `?`,
`[`, `\`, the matcher accepts a name exactly when pattern and name are equal
character for character and in length (case-sensitively); stated for faithful
ASCII C strings. -/
theorem fnmatch_no_wildcard_iff_eq (p n : List Char)
    (hp : noWildcard p) (hpa : asciiStr p) (hna : asciiStr n) :
    pathlib__fnmatch p n = true ↔ p = n := by
  have h := phase1_no_wildcard n p hp (fun c hc => by have := hpa c hc; omega)
    (fun c hc => by have := hna c hc; omega)
  by_cases hpn : p = n
  · subst hpn
    simp [pathlib__fnmatch, h]
  · simp [pathlib__fnmatch, h, hpn]

theorem fnmatch_no_wildcard_iff_eq_witness :
    noWildcard ['a', 'b'] ∧ asciiStr ['a', 'b'] ∧
      (pathlib__fnmatch ['a', 'b'] ['a', 'b'] = true ↔
        (['a', 'b'] : List Char) = ['a', 'b']) :=
  ⟨by decide, by decide,
    fnmatch_no_wildcard_iff_eq ['a', 'b'] ['a', 'b'] (by decide) (by decide)
      (by decide)⟩

/-! ### Unterminated brackets (C4) -/

theorem classScan_eq_length (pat : List Char) (z : Char) (k : Nat)
    (hk1 : 1 ≤ k) (hk : k ≤ pat.length)
    (h : ∀ j, 1 ≤ j → pat[j]? ≠ some ']') : classScan pat z k = pat.length := by
  induction k using classScan.induct pat z with
  | case1 k hlt hstop =>
    exact absurd hstop.2 (h k (by omega))
  | case2 k hlt hstop ih =>
    rw [classScan, if_pos hlt, if_neg hstop]
    exact ih (by omega) (by omega)
  | case3 k hlt =>
    rw [classScan, if_neg hlt]
    omega

theorem brScan_eq_length (pat : List Char) (k : Nat)
    (hk1 : 1 ≤ k) (hk : k ≤ pat.length)
    (h : ∀ j, 1 ≤ j → pat[j]? ≠ some ']') : brScan pat k = pat.length := by
  induction k using brScan.induct pat with
  | case1 k hlt hbr =>
    exact absurd hbr (h k (by omega))
  | case2 k hlt hbr hcl hdone =>
    rw [brScan, if_pos hlt, if_neg hbr, if_pos hcl, if_pos hdone]
  | case3 k hlt hbr hcl hdone ih =>
    have hk2 : k + 2 ≤ pat.length := by
      rcases hcl.2 with hc | hc | hc <;>
        exact lt_length_of_some hc
    have hcs : classStart pat k ≤ pat.length := by
      rw [classStart]; split <;> omega
    have := classScan_eq_length pat ((pat[k + 1]?).getD ' ') (classStart pat k)
      (by have := classStart_ge pat k; omega) hcs h
    exact absurd this hdone
  | case4 k hlt hbr hcl ih =>
    rw [brScan, if_pos hlt, if_neg hbr, if_neg hcl]
    exact ih (by omega) (by omega)
  | case5 k hlt =>
    rw [brScan, if_neg hlt]
    omega

/-- C4: a `[` with no closing `]` anywhere after it is decoded as a literal `[`
occupying one byte: the matcher then requires a literal `[` at that position in
the name (and a name whose character there is not `[` mismatches), rather than
erroring or failing unconditionally. -/
theorem pat_next_unterminated_bracket (rest : List Char) (h : ']' ∉ rest) :
    pathlib__pat_next ('[' :: rest) = (.lit '[', 1) ∧
    (∀ n : List Char, phase1 ('[' :: rest) ('[' :: n) = phase1 rest n) ∧
    (∀ (ch : Char) (n : List Char), ch ≠ '[' → 1 ≤ ch.toNat →
      phase1 ('[' :: rest) (ch :: n) = .nomatch) := by
  have hnone : ∀ j, 1 ≤ j → ('[' :: rest)[j]? ≠ some ']' := by
    intro j hj hmem
    match j, hj with
    | j + 1, _ =>
      rw [List.getElem?_cons_succ] at hmem
      exact h (List.getElem?_mem hmem)
  have hpn : pathlib__pat_next ('[' :: rest) = (.lit '[', 1) := by
    have hbr : ∀ k, 1 ≤ k → k ≤ ('[' :: rest).length →
        brScan ('[' :: rest) k = ('[' :: rest).length := fun k h1 h2 =>
      brScan_eq_length ('[' :: rest) k h1 h2 hnone
    simp only [pathlib__pat_next]
    rw [if_neg (by simp)]
    split_ifs with hA hB hC hD hE hF hG
    all_goals try rfl
    all_goals exfalso
    all_goals first
      | exact hnone 2 (by omega) (by simpa using hC)
      | exact hnone 1 (by omega) (by simpa using hF)
      | (rcases hB with hs | hs <;>
          (have hls0 := lt_length_of_some hs
           exact hE (hbr 2 (by omega) (by simp at hls0 ⊢; omega))))
      | simp_all [hbr]
  refine ⟨hpn, ?_, ?_⟩
  · intro n
    rw [phase1]
    simp [hpn, litMatch]
  · intro ch n hch hch1
    rw [phase1]
    have hk : ¬((ch.toNat : Int) ≤ 0) := by omega
    have hne : ¬((ch.toNat : Int) = 91) := by
      intro hcc
      apply hch
      apply char_toNat_inj
      have h91 : '['.toNat = 91 := by decide
      omega
    simp [hpn, litMatch, hk, hne]

theorem pat_next_unterminated_bracket_witness :
    (']' ∉ (['a', 'b'] : List Char)) ∧
      pathlib__pat_next ('[' :: ['a', 'b']) = (.lit '[', 1) :=
  ⟨by decide, (pat_next_unterminated_bracket ['a', 'b'] (by decide)).1⟩

/-! ### Matcher edge cases (C3) -/

theorem phase1_nil_pat (n : List Char) (hn : ∀ c ∈ n, c.toNat ≠ 0) :
    phase1 [] n = (if n = [] then .matched else .nomatch) := by
  match n with
  | [] => simp [phase1, pathlib__pat_next]
  | ch :: rest =>
    have hk : ¬((ch.toNat : Int) ≤ 0) := by
      have := hn ch (List.mem_cons_self ..)
      omega
    rw [phase1]
    simp [pathlib__pat_next, litMatch, hk]

theorem tailScan_all_star (p : List Char) (hp : ∀ c ∈ p, c = '*') :
    tailScan p 0 p = (0, []) := by
  induction p with
  | nil => simp [tailScan]
  | cons c q ih =>
    have hc : c = '*' := hp c (List.mem_cons_self ..)
    subst hc
    rw [tailScan]
    simp only [pat_next_star]
    simp only [if_pos rfl, List.drop_succ_cons, List.drop_zero]
    exact ih (fun x hx => hp x (List.mem_cons_of_mem _ hx))

theorem tailScan_snd_of_fst_zero (p : List Char) (tc0 : Nat) (pt0 : List Char) :
    (tailScan p tc0 pt0).1 = 0 →
    (tailScan p tc0 pt0).2 = (if p = [] then pt0 else []) := by
  induction p, tc0, pt0 using tailScan.induct with
  | case1 tc0 pt0 =>
    intro _
    simp [tailScan]
  | case2 tc0 pt0 c rest t hstar ih =>
    intro h
    rw [tailScan, if_pos hstar] at h ⊢
    rw [ih h, if_neg (by simp : ¬(c :: rest) = [])]
    split
    · rename_i hq
      rw [pat_next_star_step _ hstar] at hq
      exact hq
    · rfl
  | case3 tc0 pt0 c rest t hstar ih =>
    intro h
    rw [tailScan, if_neg hstar] at h ⊢
    rw [ih h, if_neg (by simp : ¬(c :: rest) = [])]
    split
    · rename_i hq
      rw [hq] at h
      simp [tailScan] at h
    · rfl

/-- Unfolding equation for `phase3` on a nonempty pattern region, with the
match hypothesis of the original definition removed. -/
theorem phase3_cons (c : Char) (prest str : List Char) :
    phase3 (c :: prest) str =
      (match compTry (c :: prest) str with
        | .star pat' str' => phase3 pat' str'
        | .hardFail => false
        | .fail =>
          match str with
          | [] => false
          | ch :: rest =>
            if (ch.toNat : Int) > 0 then phase3 (c :: prest) rest
            else false) := by
  rw [phase3]
  split <;> rename_i heq <;> simp [heq]
  cases str <;> simp

theorem compTry_nil_star (q : List Char) :
    compTry ('*' :: q) [] = .star q [] := by
  rw [compTry.eq_def]
  simp [pat_next_star]

theorem phase3_all_star (p : List Char) (hp : ∀ c ∈ p, c = '*') :
    phase3 p [] = true := by
  induction p with
  | nil => simp [phase3]
  | cons c q ih =>
    have hc : c = '*' := hp c (List.mem_cons_self ..)
    subst hc
    rw [phase3_cons, compTry_nil_star]
    exact ih (fun x hx => hp x (List.mem_cons_of_mem _ hx))

theorem phase3_nil_name (p : List Char) (h : phase3 p [] = true) :
    ∀ c ∈ p, c = '*' := by
  induction p with
  | nil => simp
  | cons c q ih =>
    by_cases hc : c = '*'
    · subst hc
      rw [phase3_cons, compTry_nil_star] at h
      intro x hx
      rcases List.mem_cons.mp hx with hx | hx
      · exact hx
      · exact ih h x hx
    · have hts : (pathlib__pat_next (c :: q)).1 ≠ .star := by
        rw [Ne, pat_next_star_iff]
        exact hc
      have hct : compTry (c :: q) [] = .hardFail := by
        rw [compTry.eq_def]
        simp [hts]
      rw [phase3_cons, hct] at h
      simp at h

theorem tailMatch_nil_nil : tailMatch [] [] = true := by
  rw [tailMatch]
  simp [pathlib__pat_next]

/-- The pattern `*` accepts every name: the leading loop commits to the star
immediately, the tail after the last `*` is empty, and the component loop has
an empty region. -/
theorem fnmatch_star_any (n : List Char) : pathlib__fnmatch ['*'] n = true := by
  have h1 : phase1 ['*'] n = .toStar [] n := by
    rw [phase1.eq_def]
    simp [pat_next_star]
  have h2 : tailScan ([] : List Char) 0 [] = (0, []) := by
    simp [tailScan]
  rw [pathlib__fnmatch, h1]
  simp only [h2, Nat.sub_zero, List.drop_length, List.length_nil,
    tailMatch_nil_nil, if_neg (by omega : ¬n.length < 0)]
  simp [phase3]

/-- C3: the matcher's edge cases.  The empty pattern matches only the empty
name (for NUL-free names), the empty name matches exactly the patterns made
entirely of `*`, and the pattern `*` matches every name, the empty one
included. -/
theorem fnmatch_edge_cases :
    (∀ n : List Char, (∀ c ∈ n, c.toNat ≠ 0) →
        (pathlib__fnmatch [] n = true ↔ n = [])) ∧
    (∀ p : List Char, pathlib__fnmatch p [] = true ↔ ∀ c ∈ p, c = '*') ∧
    (∀ n : List Char, pathlib__fnmatch ['*'] n = true) := by
  refine ⟨?_, ?_, ?_⟩
  · intro n hn
    have h1 := phase1_nil_pat n hn
    by_cases hne : n = []
    · subst hne
      simp [pathlib__fnmatch, h1]
    · simp [pathlib__fnmatch, h1, hne]
  · intro p
    constructor
    · intro h
      match p with
      | [] => simp
      | c :: q =>
        by_cases hc : c = '*'
        · subst hc
          have h1 : phase1 ('*' :: q) [] = .toStar q [] := by
            rw [phase1]
            simp [pat_next_star]
          rw [pathlib__fnmatch, h1] at h
          simp only at h
          rcases htp : tailScan q 0 q with ⟨tc, pt⟩
          rw [htp] at h
          simp only [List.length_nil] at h
          by_cases htc : tc = 0
          · subst htc
            have hpt : pt = [] := by
              have := tailScan_snd_of_fst_zero q 0 q (by rw [htp])
              rw [htp] at this
              simp only at this
              rw [this]
              split <;> simp_all
            subst hpt
            simp only [Nat.sub_zero, List.drop_nil, List.length_nil,
              Nat.sub_zero, List.take_nil, tailMatch_nil_nil,
              List.take_length, Nat.lt_irrefl, if_false, Bool.true_and,
              if_neg (by omega : ¬(0 : Nat) < 0)] at h
            intro x hx
            rcases List.mem_cons.mp hx with hx | hx
            · exact hx
            · refine phase3_nil_name q ?_ x hx
              simpa using h
          · rw [if_pos (by omega)] at h
            exact absurd h (by simp)
        · have hts : (pathlib__pat_next (c :: q)).1 ≠ .star := by
            rw [Ne, pat_next_star_iff]
            exact hc
          have h1 : phase1 (c :: q) [] = .nomatch := by
            rw [phase1]
            simp [hts, pat_next_ne_tEnd]
          rw [pathlib__fnmatch, h1] at h
          exact absurd h (by simp)
    · intro hstar
      match p with
      | [] =>
        have h1 : phase1 ([] : List Char) [] = .matched := by
          simp [phase1, pathlib__pat_next]
        rw [pathlib__fnmatch, h1]
      | c :: q =>
        have hc : c = '*' := hstar c (List.mem_cons_self ..)
        subst hc
        have hq : ∀ x ∈ q, x = '*' := fun x hx =>
          hstar x (List.mem_cons_of_mem _ hx)
        have h1 : phase1 ('*' :: q) [] = .toStar q [] := by
          rw [phase1]
          simp [pat_next_star]
        have h2 := tailScan_all_star q hq
        rw [pathlib__fnmatch, h1]
        simp only [h2, List.length_nil, Nat.sub_zero, List.drop_nil,
          List.take_nil, List.length_nil, tailMatch_nil_nil,
          if_neg (by omega : ¬(0 : Nat) < 0)]
        simpa [List.take_length] using phase3_all_star q hq
  · exact fnmatch_star_any

theorem fnmatch_edge_cases_witness :
    ((∀ c ∈ (['a'] : List Char), c.toNat ≠ 0) ∧
      (pathlib__fnmatch [] ['a'] = true ↔ (['a'] : List Char) = [])) ∧
    (pathlib__fnmatch ['*', 'b'] [] = true ↔
      ∀ c ∈ (['*', 'b'] : List Char), c = '*') ∧
    pathlib__fnmatch ['*'] ['x'] = true :=
  ⟨⟨by decide, fnmatch_edge_cases.1 ['a'] (by decide)⟩,
   fnmatch_edge_cases.2.1 ['*', 'b'],
   fnmatch_edge_cases.2.2 ['x']⟩

/-! ### Tail anchoring (C2) -/

/-- Modelled from the spec (§4.1 step 2), as the reference side of the
refinement statement: the suffix of the pattern after its last top-level `*`
unit, scanning unit by unit with `pathlib__pat_next`; `none` when the pattern
has no top-level `*`. -/
def lastStarSuffix (p : List Char) : Option (List Char) :=
  match p with
  | [] => none
  | c :: rest =>
    match lastStarSuffix ((c :: rest).drop (pathlib__pat_next (c :: rest)).2) with
    | some s => some s
    | none =>
      if (pathlib__pat_next (c :: rest)).1 = .star then
        some ((c :: rest).drop 1)
      else none
termination_by p.length
decreasing_by
  have := pat_next_step_pos (c :: rest) (by simp)
  simp [List.length_drop]
  omega

/-- Modelled from the spec (§4.1 step 2): the matched-unit count of a pattern,
a bracket expression or escape pair counting as one unit. -/
def unitCount (p : List Char) : Nat :=
  match p with
  | [] => 0
  | c :: rest =>
    1 + unitCount ((c :: rest).drop (pathlib__pat_next (c :: rest)).2)
termination_by p.length
decreasing_by
  have := pat_next_step_pos (c :: rest) (by simp)
  simp [List.length_drop]
  omega

/-- The zeta-reduced unfolding of `phase1`, convenient for case analysis. -/
theorem phase1_cases (p n : List Char) :
    phase1 p n = (
      if (pathlib__pat_next p).1 = .star then .toStar (p.drop 1) n
      else
        match n with
        | [] => if (pathlib__pat_next p).1 = .tEnd then .matched else .nomatch
        | ch :: rest =>
          if (ch.toNat : Int) ≤ 0 then
            (if (pathlib__pat_next p).1 = .tEnd then .matched else .nomatch)
          else if (pathlib__pat_next p).1 = .bracket then
            (if pathlib__match_bracket p (ch.toNat : Int) (ch.toNat : Int) then
              phase1 (p.drop (pathlib__pat_next p).2) rest
            else .nomatch)
          else if litMatch (pathlib__pat_next p).1 (ch.toNat : Int) then
            phase1 (p.drop (pathlib__pat_next p).2) rest
          else .nomatch) := by
  rw [phase1.eq_def]

/-- The musl scan for the last `*` refines the spec's description: it computes
the unit count of, and the pattern suffix after, the last top-level `*` (and
when there is none, it adds the whole pattern's unit count to the running
counter and leaves `ptail` unchanged). -/
theorem tailScan_eq_lastStar (N : Nat) : ∀ (p : List Char), p.length ≤ N →
    ∀ (tc0 : Nat) (pt0 : List Char),
    tailScan p tc0 pt0 =
      (match lastStarSuffix p with
       | some s => (unitCount s, s)
       | none => (tc0 + unitCount p, pt0)) := by
  induction N with
  | zero =>
    intro p hp tc0 pt0
    have hpe : p = [] := by
      cases p
      · rfl
      · simp at hp
    subst hpe
    simp [tailScan, lastStarSuffix, unitCount]
  | succ N ih =>
    intro p hp tc0 pt0
    match p with
    | [] => simp [tailScan, lastStarSuffix, unitCount]
    | c :: rest =>
      have hstep := pat_next_step_pos (c :: rest) (by simp)
      have hlen : ((c :: rest).drop (pathlib__pat_next (c :: rest)).2).length ≤
          N := by
        simp only [List.length_drop, List.length_cons] at hp ⊢
        omega
      by_cases hstar : (pathlib__pat_next (c :: rest)).1 = .star
      · have h2 := pat_next_star_step _ hstar
        rw [tailScan, if_pos hstar, h2]
        rw [h2] at hlen
        rw [ih _ hlen, lastStarSuffix, h2]
        rcases hls : lastStarSuffix ((c :: rest).drop 1) with _ | s
        · simp [hls, hstar]
        · simp [hls]
      · rw [tailScan, if_neg hstar]
        rw [ih _ hlen, lastStarSuffix]
        rcases hls :
            lastStarSuffix ((c :: rest).drop (pathlib__pat_next (c :: rest)).2)
          with _ | s
        · simp only [hls, if_neg hstar]
          rw [unitCount]
          simp [Prod.ext_iff]
          omega
        · simp [hls]

theorem tailScan_eq_lastStar' (p : List Char) (tc0 : Nat) (pt0 : List Char) :
    tailScan p tc0 pt0 =
      (match lastStarSuffix p with
       | some s => (unitCount s, s)
       | none => (tc0 + unitCount p, pt0)) :=
  tailScan_eq_lastStar p.length p le_rfl tc0 pt0

/-- `phase1` on the empty name. -/
theorem phase1_nil_cases (p : List Char) :
    phase1 p [] =
      (if (pathlib__pat_next p).1 = .star then .toStar (p.drop 1) []
       else if (pathlib__pat_next p).1 = .tEnd then .matched else .nomatch) := by
  rw [phase1_cases]

/-- `phase1` on a nonempty name. -/
theorem phase1_cons_cases (p : List Char) (ch : Char) (rest : List Char) :
    phase1 p (ch :: rest) = (
      if (pathlib__pat_next p).1 = .star then .toStar (p.drop 1) (ch :: rest)
      else if (ch.toNat : Int) ≤ 0 then
        (if (pathlib__pat_next p).1 = .tEnd then .matched else .nomatch)
      else if (pathlib__pat_next p).1 = .bracket then
        (if pathlib__match_bracket p (ch.toNat : Int) (ch.toNat : Int) then
          phase1 (p.drop (pathlib__pat_next p).2) rest
        else .nomatch)
      else if litMatch (pathlib__pat_next p).1 (ch.toNat : Int) then
        phase1 (p.drop (pathlib__pat_next p).2) rest
      else .nomatch) := by
  rw [phase1_cases]

/-- In the leading loop, the name cursor only ever advances: the name handed to
the tail phase is a suffix of the original name. -/
theorem phase1_toStar_suffix (n : List Char) : ∀ (p pat' str' : List Char),
    phase1 p n = .toStar pat' str' →
    ∃ kk, kk ≤ n.length ∧ str' = n.drop kk := by
  induction n with
  | nil =>
    intro p pat' str' h
    rw [phase1_nil_cases] at h
    by_cases hstar : (pathlib__pat_next p).1 = .star
    · rw [if_pos hstar] at h
      injection h with h1 h2
      exact ⟨0, by simp, by rw [List.drop_zero]; exact h2.symm⟩
    · rw [if_neg hstar] at h
      split at h <;> exact absurd h (by simp)
  | cons ch rest ih =>
    intro p pat' str' h
    rw [phase1_cons_cases] at h
    by_cases hstar : (pathlib__pat_next p).1 = .star
    · rw [if_pos hstar] at h
      injection h with h1 h2
      exact ⟨0, by simp, by rw [List.drop_zero]; exact h2.symm⟩
    · rw [if_neg hstar] at h
      by_cases hk : ((ch.toNat : Int) ≤ 0)
      · rw [if_pos hk] at h
        split at h <;> exact absurd h (by simp)
      · rw [if_neg hk] at h
        by_cases hb : (pathlib__pat_next p).1 = .bracket
        · rw [if_pos hb] at h
          by_cases hmb : pathlib__match_bracket p (ch.toNat : Int)
              (ch.toNat : Int) = true
          · rw [if_pos hmb] at h
            obtain ⟨kk, hk1, heq⟩ := ih _ _ _ h
            exact ⟨kk + 1, by simp only [List.length_cons]; omega,
              by rw [heq, List.drop_succ_cons]⟩
          · rw [if_neg hmb] at h
            exact absurd h (by simp)
        · rw [if_neg hb] at h
          by_cases hl : litMatch (pathlib__pat_next p).1 (ch.toNat : Int) = true
          · rw [if_pos hl] at h
            obtain ⟨kk, hk1, heq⟩ := ih _ _ _ h
            exact ⟨kk + 1, by simp only [List.length_cons]; omega,
              by rw [heq, List.drop_succ_cons]⟩
          · rw [if_neg hl] at h
            exact absurd h (by simp)

theorem ne_nil_of_pat_next_bracket {p : List Char}
    (h : (pathlib__pat_next p).1 = .bracket) : p ≠ [] := by
  intro hp
  subst hp
  simp [pathlib__pat_next] at h

theorem ne_nil_of_litMatch {p : List Char} {k : Int}
    (h : litMatch (pathlib__pat_next p).1 k = true) : p ≠ [] := by
  intro hp
  subst hp
  simp [pathlib__pat_next, litMatch] at h

theorem ne_nil_of_pat_next_star {p : List Char}
    (h : (pathlib__pat_next p).1 = .star) : p ≠ [] := by
  intro hp
  subst hp
  simp [pathlib__pat_next] at h

/-- When the leading loop commits to a `*`, the last top-level `*` of the whole
pattern is the last `*` of the remaining pattern (or, failing that, the
committed one), so the spec-side suffix of the whole pattern is well defined
and agrees with the remaining pattern's. -/
theorem phase1_toStar_lss (n : List Char) : ∀ (p pat' str' : List Char),
    phase1 p n = .toStar pat' str' →
    lastStarSuffix p = some ((lastStarSuffix pat').getD pat') := by
  induction n with
  | nil =>
    intro p pat' str' h
    rw [phase1_nil_cases] at h
    by_cases hstar : (pathlib__pat_next p).1 = .star
    · rw [if_pos hstar] at h
      injection h with h1 h2
      obtain ⟨c, prest, hcons⟩ :=
        List.exists_cons_of_ne_nil (ne_nil_of_pat_next_star hstar)
      subst hcons
      rw [lastStarSuffix, pat_next_star_step _ hstar, ← h1]
      rcases hls : lastStarSuffix ((c :: prest).drop 1) with _ | s
      · rw [if_pos hstar]
        simp [hls]
      · simp [hls]
    · rw [if_neg hstar] at h
      split at h <;> exact absurd h (by simp)
  | cons ch rest ih =>
    intro p pat' str' h
    rw [phase1_cons_cases] at h
    by_cases hstar : (pathlib__pat_next p).1 = .star
    · rw [if_pos hstar] at h
      injection h with h1 h2
      obtain ⟨c, prest, hcons⟩ :=
        List.exists_cons_of_ne_nil (ne_nil_of_pat_next_star hstar)
      subst hcons
      rw [lastStarSuffix, pat_next_star_step _ hstar, ← h1]
      rcases hls : lastStarSuffix ((c :: prest).drop 1) with _ | s
      · rw [if_pos hstar]
        simp [hls]
      · simp [hls]
    · rw [if_neg hstar] at h
      by_cases hk : ((ch.toNat : Int) ≤ 0)
      · rw [if_pos hk] at h
        split at h <;> exact absurd h (by simp)
      · rw [if_neg hk] at h
        by_cases hb : (pathlib__pat_next p).1 = .bracket
        · rw [if_pos hb] at h
          by_cases hmb : pathlib__match_bracket p (ch.toNat : Int)
              (ch.toNat : Int) = true
          · rw [if_pos hmb] at h
            have hres := ih _ _ _ h
            obtain ⟨c, prest, hcons⟩ :=
              List.exists_cons_of_ne_nil (ne_nil_of_pat_next_bracket hb)
            subst hcons
            rw [lastStarSuffix]
            rw [hres]
          · rw [if_neg hmb] at h
            exact absurd h (by simp)
        · rw [if_neg hb] at h
          by_cases hl : litMatch (pathlib__pat_next p).1 (ch.toNat : Int) = true
          · rw [if_pos hl] at h
            have hres := ih _ _ _ h
            obtain ⟨c, prest, hcons⟩ :=
              List.exists_cons_of_ne_nil (ne_nil_of_litMatch hl)
            subst hcons
            rw [lastStarSuffix]
            rw [hres]
          · rw [if_neg hl] at h
            exact absurd h (by simp)

/-- A fully matched star-free leading pattern has no top-level star. -/
theorem phase1_matched_lss (n : List Char) : ∀ (p : List Char),
    phase1 p n = .matched → lastStarSuffix p = none := by
  induction n with
  | nil =>
    intro p h
    rw [phase1_nil_cases] at h
    by_cases hstar : (pathlib__pat_next p).1 = .star
    · rw [if_pos hstar] at h
      exact absurd h (by simp)
    · rw [if_neg hstar] at h
      split at h
      · rename_i hend
        have hpe : p = [] := by
          rcases p with _ | ⟨c, prest⟩
          · rfl
          · exact absurd hend (pat_next_ne_tEnd c prest)
        subst hpe
        simp [lastStarSuffix]
      · exact absurd h (by simp)
  | cons ch rest ih =>
    intro p h
    rw [phase1_cons_cases] at h
    by_cases hstar : (pathlib__pat_next p).1 = .star
    · rw [if_pos hstar] at h
      exact absurd h (by simp)
    · rw [if_neg hstar] at h
      by_cases hk : ((ch.toNat : Int) ≤ 0)
      · rw [if_pos hk] at h
        split at h
        · rename_i hend
          have hpe : p = [] := by
            rcases p with _ | ⟨c, prest⟩
            · rfl
            · exact absurd hend (pat_next_ne_tEnd c prest)
          subst hpe
          simp [lastStarSuffix]
        · exact absurd h (by simp)
      · rw [if_neg hk] at h
        by_cases hb : (pathlib__pat_next p).1 = .bracket
        · rw [if_pos hb] at h
          by_cases hmb : pathlib__match_bracket p (ch.toNat : Int)
              (ch.toNat : Int) = true
          · rw [if_pos hmb] at h
            have hres := ih _ h
            obtain ⟨c, prest, hcons⟩ :=
              List.exists_cons_of_ne_nil (ne_nil_of_pat_next_bracket hb)
            subst hcons
            rw [lastStarSuffix, hres, if_neg hstar]
          · rw [if_neg hmb] at h
            exact absurd h (by simp)
        · rw [if_neg hb] at h
          by_cases hl : litMatch (pathlib__pat_next p).1 (ch.toNat : Int) = true
          · rw [if_pos hl] at h
            have hres := ih _ h
            obtain ⟨c, prest, hcons⟩ :=
              List.exists_cons_of_ne_nil (ne_nil_of_litMatch hl)
            subst hcons
            rw [lastStarSuffix, hres, if_neg hstar]
          · rw [if_neg hl] at h
            exact absurd h (by simp)

/-- C2: for a pattern with at least one (top-level) `*`, the matcher anchors
the fixed suffix after the last `*`: a name with fewer characters than the
suffix's unit count is rejected, and any accepted name has that suffix
matching, unit by unit, its final `N` characters. -/
theorem fnmatch_tail_anchoring (p n : List Char)
    (hs : (lastStarSuffix p).isSome = true) :
    (n.length < unitCount ((lastStarSuffix p).getD p) →
      pathlib__fnmatch p n = false) ∧
    (pathlib__fnmatch p n = true →
      unitCount ((lastStarSuffix p).getD p) ≤ n.length ∧
      tailMatch ((lastStarSuffix p).getD p)
        (n.drop (n.length - unitCount ((lastStarSuffix p).getD p))) = true) := by
  rcases hph : phase1 p n with _ | _ | ⟨pat', str'⟩
  · have hf : pathlib__fnmatch p n = false := by rw [pathlib__fnmatch, hph]
    constructor
    · intro _
      exact hf
    · intro ht
      rw [hf] at ht
      exact absurd ht (by simp)
  · have := phase1_matched_lss n p hph
    rw [this] at hs
    simp at hs
  · have hlss := phase1_toStar_lss n p pat' str' hph
    obtain ⟨kk, hkk, hstr⟩ := phase1_toStar_suffix n p pat' str' hph
    have hgetD : (lastStarSuffix p).getD p = (lastStarSuffix pat').getD pat' := by
      rw [hlss]
      rfl
    have hts : tailScan pat' 0 pat' =
        (unitCount ((lastStarSuffix pat').getD pat'),
          (lastStarSuffix pat').getD pat') := by
      rw [tailScan_eq_lastStar']
      rcases hls2 : lastStarSuffix pat' with _ | s
      · simp [hls2]
      · simp [hls2]
    have hlen : str'.length = n.length - kk := by
      rw [hstr, List.length_drop]
    rw [hgetD]
    constructor
    · intro hshort
      rw [pathlib__fnmatch, hph]
      simp only [hts]
      rw [if_pos (by omega)]
    · intro htrue
      rw [pathlib__fnmatch, hph] at htrue
      simp only [hts] at htrue
      by_cases hlt : str'.length < unitCount ((lastStarSuffix pat').getD pat')
      · rw [if_pos hlt] at htrue
        exact absurd htrue (by simp)
      · rw [if_neg hlt] at htrue
        by_cases htm : tailMatch ((lastStarSuffix pat').getD pat')
            (str'.drop (str'.length - unitCount ((lastStarSuffix pat').getD
              pat'))) = true
        · refine ⟨by omega, ?_⟩
          have hdd : str'.drop (str'.length -
                unitCount ((lastStarSuffix pat').getD pat')) =
              n.drop (n.length - unitCount ((lastStarSuffix pat').getD pat')) := by
            rw [hstr, List.drop_drop]
            congr 1
            rw [List.length_drop]
            omega
          rw [← hdd]
          exact htm
        · rw [if_neg htm] at htrue
          exact absurd htrue (by simp)

theorem fnmatch_tail_anchoring_witness :
    (lastStarSuffix ['a', '*', 'b']).isSome = true ∧
    ([] : List Char).length <
      unitCount ((lastStarSuffix ['a', '*', 'b']).getD ['a', '*', 'b']) ∧
    pathlib__fnmatch ['a', '*', 'b'] [] = false := by
  have hls : lastStarSuffix ['a', '*', 'b'] = some ['b'] := by
    simp [lastStarSuffix, pathlib__pat_next]
  have huc : unitCount ['b'] = 1 := by
    simp [unitCount, pathlib__pat_next]
  refine ⟨by rw [hls]; rfl, by rw [hls]; simpa using huc.ge, ?_⟩
  exact (fnmatch_tail_anchoring ['a', '*', 'b'] [] (by rw [hls]; rfl)).1
    (by rw [hls]; simp [huc])

/-! ### Path claims (C8, C9) -/

/-- C8 counterexample: the claim that every constructor-produced Path holds
only non-empty, separator-free segments is false on the code.  Parsing `"/a"`
yields an empty first segment, and `pathlib_add_part` appends a part
containing a separator verbatim. -/
theorem path_segment_invariant_counterexample :
    [] ∈ pathlib_from_str ['/', 'a'] ∧
    ['a', '/', 'b'] ∈ pathlib_add_part [['x']] ['a', '/', 'b'] ∧
    '/' ∈ (['a', '/', 'b'] : List Char) := by decide

/-- C8 amended: segments produced by `pathlib_from_str` never contain a
separator character (`/` or `\`), though they may be empty (for leading,
doubled or trailing separators, and for the empty input); `pathlib_add_part`
performs no validation and appends the given part verbatim, so appended
segments may be empty or contain separators. -/
theorem from_str_segments_sep_free (s : List Char) :
    ∀ seg ∈ pathlib_from_str s, ∀ c ∈ seg, isSep c = false := by
  induction s with
  | nil =>
    intro seg hseg c hc
    simp only [pathlib_from_str, List.mem_singleton] at hseg
    subst hseg
    simp at hc
  | cons a rest ih =>
    intro seg hseg c hc
    cases ha : isSep a with
    | true =>
      rw [from_str_cons_sep a rest ha] at hseg
      rcases List.mem_cons.mp hseg with h1 | h1
      · subst h1
        simp at hc
      · exact ih seg h1 c hc
    | false =>
      obtain ⟨s0, segs, heq⟩ :=
        List.exists_cons_of_ne_nil (pathlib_from_str_ne_nil rest)
      rw [from_str_cons_not_sep a rest ha s0 segs heq] at hseg
      rcases List.mem_cons.mp hseg with h1 | h1
      · subst h1
        rcases List.mem_cons.mp hc with h2 | h2
        · subst h2
          exact ha
        · exact ih s0 (by rw [heq]; exact List.mem_cons_self ..) c h2
      · exact ih seg (by rw [heq]; exact List.mem_cons_of_mem _ h1) c hc

theorem from_str_segments_sep_free_witness :
    (['a'] ∈ pathlib_from_str ['a', '/', 'b']) ∧
    ('a' ∈ (['a'] : List Char)) ∧ isSep 'a' = false :=
  ⟨by decide, by decide,
    from_str_segments_sep_free ['a', '/', 'b'] ['a'] (by decide) 'a' (by decide)⟩

/-- C9: for an input with no empty segments and a single separator style,
rendering the parsed Path returns the input up to separator normalisation; the
empty Path renders to the empty string, and the rendering emits no trailing
separator. -/
theorem to_str_from_str_roundtrip (s : List Char)
    (hne : ∀ seg ∈ pathlib_from_str s, seg ≠ [])
    (hstyle : ∀ c ∈ s, ∀ d ∈ s, isSep c = true → isSep d = true → c = d) :
    pathlib_to_str (pathlib_from_str s) = s.map normSep ∧
    pathlib_to_str [] = [] ∧
    (pathlib_to_str (pathlib_from_str s)).getLast? ≠ some '/' := by
  have hrt : pathlib_to_str (pathlib_from_str s) = s.map normSep := by
    rw [pathlib_to_str_eq_joinSep]
    exact joinSep_from_str s hne
  refine ⟨hrt, rfl, ?_⟩
  rw [hrt]
  intro hlast
  rw [List.getLast?_map] at hlast
  rcases hget : s.getLast? with _ | d
  · rw [hget] at hlast
    simp at hlast
  · rw [hget] at hlast
    simp only [Option.map_some', Option.some.injEq] at hlast
    have hsep : isSep d = true := by
      by_cases hd : d = '\\'
      · simp [isSep, hd]
      · rw [normSep, if_neg hd] at hlast
        simp [isSep, hlast]
    have hlastseg := from_str_getLast_of_sep s d hget hsep
    exact hne [] (List.mem_of_mem_getLast? hlastseg) rfl

theorem to_str_from_str_roundtrip_witness :
    (∀ seg ∈ pathlib_from_str ['a', '/', 'b'], seg ≠ []) ∧
    (∀ c ∈ (['a', '/', 'b'] : List Char), ∀ d ∈ (['a', '/', 'b'] : List Char),
      isSep c = true → isSep d = true → c = d) ∧
    pathlib_to_str (pathlib_from_str ['a', '/', 'b']) =
      (['a', '/', 'b'] : List Char).map normSep :=
  ⟨by decide, by decide,
    (to_str_from_str_roundtrip ['a', '/', 'b'] (by decide) (by decide)).1⟩

/-! ## Directory-tree walker

`pathlib__recursive_glob` (POSIX branch, src/pathlib.h:2572-2616) is embedded
over an abstract filesystem collaborator: a directory is a listing of entries
in `readdir` order.  `statFail` models an entry whose full path cannot be
`stat`ed (src/pathlib.h:2593-2595); `dirBad` models a subdirectory whose own
`opendir` fails; `dirOk` carries the subdirectory's listing.  `FSListing.err`
models a `readdir` call that fails, returning `NULL` with `errno` set: its
argument is the remainder of the directory's content, which is consequently
never delivered to the loop.  The loop condition
`while ((entry = readdir(dir)) != NULL)` (src/pathlib.h:2584) does not check
`errno` and so cannot distinguish this from the end of the stream: the loop
exits and the function falls through to `closedir` and `return 1`.
`snprintf` truncation of `fullpath` against `PATHLIB_MAX_PATH` is not
modelled (paths are unbounded), and the `"."`/`".."` pseudo-entries may
appear in a listing with any kind since the walker skips them by name before
classifying them. -/

mutual
inductive FSEntry where
  | file : List Char → FSEntry
  | dirOk : List Char → FSListing → FSEntry
  | dirBad : List Char → FSEntry
  | statFail : List Char → FSEntry
inductive FSListing where
  | nil : FSListing
  | cons : FSEntry → FSListing → FSListing
  | err : FSListing → FSListing
end

/-- The `d_name` of an entry. -/
def FSEntry.name : FSEntry → List Char
  | .file n => n
  | .dirOk n _ => n
  | .dirBad n => n
  | .statFail n => n

/-- The `strcmp(name, ".") == 0 || strcmp(name, "..") == 0` check
(src/pathlib.h:2585). -/
def isDot (name : List Char) : Bool :=
  name = ['.'] || name = ['.', '.']

/-- `Pathlib_Error` (src/pathlib.h:128-154). -/
inductive PathlibError where
  | eNone
  | eExists
  | eNExists
  | eOSError
deriving DecidableEq

/-- `pathlib__recursive_glob` (POSIX branch, src/pathlib.h:2572-2616) applied
to an already-opened listing: the C `int` success flag paired with the
accumulated results.  A `dirBad` reached with `recursive` set models the
nested call whose `opendir` fails: it sets `pathlib_error = PATHLIB_OSERROR`
and returns 0, and every caller propagates the 0 after `closedir`.  Matching
entries are appended as `pathlib_from_str(fullpath)` with
`fullpath = base "/" name`.  Reaching an `err` point — `readdir` returning
`NULL` because of an error — exits the `while` loop exactly as the end of the
stream does (src/pathlib.h:2584, no `errno` check), so the function returns 1
with whatever it has accumulated; the undelivered remainder is ignored. -/
def pathlib__recursive_glob (pattern : List Char) (recursive : Bool)
    (basePath : List Char) (l : FSListing)
    (results : List (List (List Char))) : Bool × List (List (List Char)) :=
  match l with
  | .nil => (true, results)
  | .cons e rest =>
    if isDot e.name then
      pathlib__recursive_glob pattern recursive basePath rest results
    else
      match e with
      | .file name =>
        if pathlib__fnmatch pattern name then
          pathlib__recursive_glob pattern recursive basePath rest
            (results ++ [pathlib_from_str (basePath ++ '/' :: name)])
        else pathlib__recursive_glob pattern recursive basePath rest results
      | .statFail _ =>
        pathlib__recursive_glob pattern recursive basePath rest results
      | .dirBad _ =>
        if recursive then (false, results)
        else pathlib__recursive_glob pattern recursive basePath rest results
      | .dirOk name sub =>
        if recursive then
          match pathlib__recursive_glob pattern recursive
              (basePath ++ '/' :: name) sub results with
          | (true, acc) =>
            pathlib__recursive_glob pattern recursive basePath rest acc
          | (false, acc) => (false, acc)
        else pathlib__recursive_glob pattern recursive basePath rest results
  | .err _ => (true, results)
termination_by sizeOf l
decreasing_by all_goals (simp; try omega)

/-- A `readdir` failure mid-listing ends the loop as if the stream were
exhausted: the walk returns success with the results accumulated so far,
whatever the undelivered remainder of the directory held
(src/pathlib.h:2584, `readdir` returning `NULL` is never told apart from an
error). -/
theorem recursive_glob_err (pattern : List Char) (recursive : Bool)
    (basePath : List Char) (rest : FSListing)
    (results : List (List (List Char))) :
    pathlib__recursive_glob pattern recursive basePath (.err rest) results =
      (true, results) := by
  rw [pathlib__recursive_glob]

/-- `pathlib_glob`/`pathlib_rglob` (src/pathlib.h:2618-2674), parametrised by
the `recursive` flag that distinguishes them.  `rootIsDir` is the verdict of
the `pathlib_is_dir` collaborator; `root` is `none` when `opendir` on the
rendered root fails.  After a failed walk `pathlib_paths_free`
(src/pathlib.h:2094-2101) zeroes the collection, so the failure result is the
empty collection with `PATHLIB_OSERROR`.  (The second `PATHLIB_NEXISTS` exit,
when the root does not fit the render buffer, is not modelled.) -/
def pathlib_glob_model (rootIsDir : Bool) (rootStr : List Char)
    (root : Option FSListing) (pattern : List Char) (recursive : Bool) :
    List (List (List Char)) × PathlibError :=
  if ¬rootIsDir then ([], .eNExists)
  else
    match root with
    | none => ([], .eOSError)
    | some l =>
      match pathlib__recursive_glob pattern recursive rootStr l [] with
      | (true, acc) => (acc, .eNone)
      | (false, _) => ([], .eOSError)

/-- `pathlib_glob` (src/pathlib.h:2618-2645): the non-recursive walk. -/
def pathlib_glob (rootIsDir : Bool) (rootStr : List Char)
    (root : Option FSListing) (pattern : List Char) :
    List (List (List Char)) × PathlibError :=
  pathlib_glob_model rootIsDir rootStr root pattern false

/-- `pathlib_rglob` (src/pathlib.h:2647-2674): the recursive walk. -/
def pathlib_rglob (rootIsDir : Bool) (rootStr : List Char)
    (root : Option FSListing) (pattern : List Char) :
    List (List (List Char)) × PathlibError :=
  pathlib_glob_model rootIsDir rootStr root pattern true

/-- C7: when the root is not an existing directory (the `pathlib_is_dir`
collaborator answers no), both `pathlib_glob` and `pathlib_rglob` return the
empty collection with `pathlib_error = PATHLIB_NEXISTS` — for every possible
filesystem, i.e. without listing any directory. -/
theorem glob_nonexistent_root (rootStr : List Char) (root : Option FSListing)
    (pattern : List Char) :
    pathlib_glob false rootStr root pattern = ([], .eNExists) ∧
    pathlib_rglob false rootStr root pattern = ([], .eNExists) := by
  constructor <;> rfl

/-- Removal of every stat-failing entry from a filesystem, recursively. -/
def dropStatFails : FSListing → FSListing
  | .nil => .nil
  | .cons (.statFail _) rest => dropStatFails rest
  | .cons (.dirOk name sub) rest =>
    .cons (.dirOk name (dropStatFails sub)) (dropStatFails rest)
  | .cons e rest => .cons e (dropStatFails rest)
  | .err rest => .err (dropStatFails rest)
termination_by l => sizeOf l
decreasing_by all_goals (simp; try omega)

/-- C10: an entry whose full path cannot be `stat`ed is silently skipped by
the walk: it is neither matched nor recursed into, and it neither aborts the
walk nor changes the reported error — the walk of a listing is identical to
the walk of the listing with every stat-failing entry removed, at every
nesting depth, and so are the results and error of `pathlib_glob` and
`pathlib_rglob`. -/
theorem recursive_glob_skips_stat_failures (pattern : List Char)
    (recursive : Bool) :
    (∀ (basePath name : List Char) (rest : FSListing)
        (acc : List (List (List Char))),
      pathlib__recursive_glob pattern recursive basePath
          (.cons (.statFail name) rest) acc =
        pathlib__recursive_glob pattern recursive basePath rest acc) ∧
    (∀ (l : FSListing) (basePath : List Char) (acc : List (List (List Char))),
      pathlib__recursive_glob pattern recursive basePath (dropStatFails l) acc =
        pathlib__recursive_glob pattern recursive basePath l acc) ∧
    (∀ (rootIsDir : Bool) (rootStr : List Char) (root : Option FSListing),
      pathlib_glob_model rootIsDir rootStr (root.map dropStatFails) pattern
          recursive =
        pathlib_glob_model rootIsDir rootStr root pattern recursive) := by
  have hone : ∀ (basePath name : List Char) (rest : FSListing)
      (acc : List (List (List Char))),
      pathlib__recursive_glob pattern recursive basePath
          (.cons (.statFail name) rest) acc =
        pathlib__recursive_glob pattern recursive basePath rest acc := by
    intro basePath name rest acc
    rw [pathlib__recursive_glob]
    split <;> rfl
  have hdrop : ∀ (l : FSListing) (basePath : List Char)
      (acc : List (List (List Char))),
      pathlib__recursive_glob pattern recursive basePath (dropStatFails l) acc =
        pathlib__recursive_glob pattern recursive basePath l acc := by
    intro l
    induction l using dropStatFails.induct with
    | case1 =>
      intro basePath acc
      rw [dropStatFails]
    | case2 name rest ih =>
      intro basePath acc
      rw [dropStatFails, ih, hone]
    | case3 name sub rest ihsub ih =>
      intro basePath acc
      rw [dropStatFails]
      rw [pathlib__recursive_glob]
      conv_rhs => rw [pathlib__recursive_glob]
      simp only [FSEntry.name]
      split
      · exact ih basePath acc
      · split
        · rw [ihsub]
          rcases hres : pathlib__recursive_glob pattern recursive
              (basePath ++ '/' :: name) sub acc with ⟨ok, acc2⟩
          cases ok
          · rfl
          · exact ih basePath acc2
        · exact ih basePath acc
    | case4 e rest hne1 hne2 ih =>
      intro basePath acc
      have hds : dropStatFails (.cons e rest) = .cons e (dropStatFails rest) := by
        rw [dropStatFails]
        · exact hne1
        · exact hne2
      rw [hds]
      rcases e with name | ⟨name, sub⟩ | name | name
      · rw [pathlib__recursive_glob]
        conv_rhs => rw [pathlib__recursive_glob]
        split
        · exact ih basePath acc
        · split
          · exact ih basePath _
          · exact ih basePath acc
      · exact absurd rfl (hne2 name sub)
      · rw [pathlib__recursive_glob]
        conv_rhs => rw [pathlib__recursive_glob]
        split
        · exact ih basePath acc
        · split
          · rfl
          · exact ih basePath acc
      · exact absurd rfl (hne1 name)
    | case5 rest ih =>
      intro basePath acc
      rw [dropStatFails, recursive_glob_err, recursive_glob_err]
  refine ⟨hone, hdrop, ?_⟩
  intro rootIsDir rootStr root
  rcases root with _ | l
  · rfl
  · simp only [Option.map_some']
    rw [pathlib_glob_model, pathlib_glob_model]
    rw [hdrop]

/-- A listing contains, at some depth the walk would reach with `recursive`
set, a non-dot directory whose `opendir` fails.  Entries beyond a `readdir`
failure point are never delivered, hence never reached. -/
def hasBadDir : FSListing → Bool
  | .nil => false
  | .cons e rest =>
    (if isDot e.name then false
     else
       match e with
       | .dirBad _ => true
       | .dirOk _ sub => hasBadDir sub
       | _ => false) || hasBadDir rest
  | .err _ => false
termination_by l => sizeOf l
decreasing_by all_goals (simp; try omega)

theorem hasBadDir_cons_file (name : List Char) (rest : FSListing) :
    hasBadDir (.cons (.file name) rest) = hasBadDir rest := by
  rw [hasBadDir]
  · simp
  · simp
  · simp

theorem hasBadDir_cons_statFail (name : List Char) (rest : FSListing) :
    hasBadDir (.cons (.statFail name) rest) = hasBadDir rest := by
  rw [hasBadDir]
  · simp
  · simp
  · simp

theorem hasBadDir_cons_dirBad (name : List Char) (rest : FSListing) :
    hasBadDir (.cons (.dirBad name) rest) =
      ((if isDot name then false else true) || hasBadDir rest) := by
  rw [hasBadDir]
  simp [FSEntry.name]

theorem hasBadDir_cons_dirOk (name : List Char) (sub rest : FSListing) :
    hasBadDir (.cons (.dirOk name sub) rest) =
      ((if isDot name then false else hasBadDir sub) || hasBadDir rest) := by
  rw [hasBadDir]
  simp [FSEntry.name]

theorem recursive_glob_fails_of_hasBadDir (pattern : List Char) :
    ∀ (l : FSListing) (basePath : List Char) (acc : List (List (List Char))),
      hasBadDir l = true →
      (pathlib__recursive_glob pattern true basePath l acc).1 = false := by
  intro l
  induction l using hasBadDir.induct with
  | case1 =>
    intro basePath acc h
    rw [hasBadDir] at h
    exact absurd h (by simp)
  | case2 e rest ihm ih =>
    intro basePath acc h
    rcases e with name | ⟨name, sub⟩ | name | name
    · rw [hasBadDir_cons_file] at h
      rw [pathlib__recursive_glob]
      simp only [FSEntry.name]
      by_cases hdot : isDot name
      · rw [if_pos hdot]
        exact ih basePath acc h
      · rw [if_neg hdot]
        split
        · exact ih basePath _ h
        · exact ih basePath acc h
    · rw [hasBadDir_cons_dirOk] at h
      rw [pathlib__recursive_glob]
      simp only [FSEntry.name] at h ⊢
      by_cases hdot : isDot name
      · rw [if_pos hdot] at h ⊢
        simp only [Bool.false_or] at h
        exact ih basePath acc h
      · rw [if_neg hdot] at h ⊢
        rw [if_pos trivial]
        rcases hres : pathlib__recursive_glob pattern true
            (basePath ++ '/' :: name) sub acc with ⟨ok, acc2⟩
        cases ok
        · simp
        · rcases (Bool.or_eq_true _ _).mp h with hsub | hrest
          · have := ihm (basePath ++ '/' :: name) acc hsub
            rw [hres] at this
            exact absurd this (by simp)
          · exact ih basePath acc2 hrest
    · rw [hasBadDir_cons_dirBad] at h
      rw [pathlib__recursive_glob]
      simp only [FSEntry.name] at h ⊢
      by_cases hdot : isDot name
      · rw [if_pos hdot] at h ⊢
        simp only [Bool.false_or] at h
        exact ih basePath acc h
      · rw [if_neg hdot]
        rw [if_pos trivial]
    · rw [hasBadDir_cons_statFail] at h
      rw [pathlib__recursive_glob]
      simp only [FSEntry.name]
      by_cases hdot : isDot name
      · rw [if_pos hdot]
        exact ih basePath acc h
      · rw [if_neg hdot]
        exact ih basePath acc h
  | case3 rest =>
    intro basePath acc h
    rw [hasBadDir] at h
    exact absurd h (by simp)

/-- C5 (counterexample to the original claim): a `readdir` failure
mid-listing does not abort the walk.  With the root listing delivering the
matching file `"a"` and then failing (`readdir` returns `NULL` with `errno`
set) before the matching file `"b"`, `pathlib_glob` returns the single
accumulated result with `pathlib_error = PATHLIB_NONE` — a partial result
set, returned silently (the full listing would have produced both results) —
not the empty collection with `PATHLIB_OSERROR`.  The loop at
src/pathlib.h:2584 never checks `errno`, so the error is indistinguishable
from the end of the stream. -/
theorem glob_listing_failure_counterexample :
    pathlib_glob true ['r']
        (some (.cons (.file ['a']) (.err (.cons (.file ['b']) .nil))))
        ['*'] =
      ([pathlib_from_str (['r'] ++ '/' :: ['a'])], .eNone) ∧
    pathlib_glob true ['r']
        (some (.cons (.file ['a']) (.cons (.file ['b']) .nil))) ['*'] =
      ([pathlib_from_str (['r'] ++ '/' :: ['a']),
        pathlib_from_str (['r'] ++ '/' :: ['b'])], .eNone) ∧
    pathlib_glob true ['r']
        (some (.cons (.file ['a']) (.err (.cons (.file ['b']) .nil))))
        ['*'] ≠
      ([], .eOSError) := by
  have hfa : pathlib__fnmatch ['*'] ['a'] = true := fnmatch_star_any ['a']
  have hfb : pathlib__fnmatch ['*'] ['b'] = true := fnmatch_star_any ['b']
  have hw1 : pathlib__recursive_glob ['*'] false ['r']
      (.cons (.file ['a']) (.err (.cons (.file ['b']) .nil))) [] =
      (true, [pathlib_from_str (['r'] ++ '/' :: ['a'])]) := by
    rw [pathlib__recursive_glob]
    rw [if_neg (by decide), if_pos hfa]
    rw [recursive_glob_err]
    simp
  have hw2 : pathlib__recursive_glob ['*'] false ['r']
      (.cons (.file ['a']) (.cons (.file ['b']) .nil)) [] =
      (true, [pathlib_from_str (['r'] ++ '/' :: ['a']),
        pathlib_from_str (['r'] ++ '/' :: ['b'])]) := by
    rw [pathlib__recursive_glob]
    rw [if_neg (by decide), if_pos hfa]
    rw [pathlib__recursive_glob]
    rw [if_neg (by decide), if_pos hfb]
    rw [pathlib__recursive_glob]
    simp
  have h1 : pathlib_glob true ['r']
      (some (.cons (.file ['a']) (.err (.cons (.file ['b']) .nil))))
      ['*'] =
      ([pathlib_from_str (['r'] ++ '/' :: ['a'])], .eNone) := by
    rw [pathlib_glob, pathlib_glob_model]
    rw [if_neg (by simp), hw1]
  refine ⟨h1, ?_, ?_⟩
  · rw [pathlib_glob, pathlib_glob_model]
    rw [if_neg (by simp), hw2]
  · rw [h1]
    simp

/-- C5 (amended): a failed `opendir` is the only listing-related failure the
walk detects, and it does abort: when `opendir` on the root fails, or (with
`recursive` set) the walk reaches a non-dot nested directory whose `opendir`
fails, the call releases the partial accumulation and returns the empty
collection with `pathlib_error = PATHLIB_OSERROR`; a nonempty result is only
ever returned with no error signalled.  A `readdir` failure mid-listing, by
contrast, is not detected: the loop exits as at end-of-stream and the walk
returns success with whatever was accumulated, the remainder of that
directory silently dropped. -/
theorem glob_aborts_on_opendir_failure (rootStr : List Char)
    (root : Option FSListing) (pattern : List Char) (recursive : Bool) :
    ((pathlib_glob_model true rootStr root pattern recursive).1 ≠ [] →
      (pathlib_glob_model true rootStr root pattern recursive).2 = .eNone) ∧
    (root = none →
      pathlib_glob_model true rootStr root pattern recursive =
        ([], .eOSError)) ∧
    (∀ l, root = some l → recursive = true → hasBadDir l = true →
      pathlib_glob_model true rootStr root pattern recursive =
        ([], .eOSError)) ∧
    (∀ (basePath : List Char) (rest : FSListing)
        (acc : List (List (List Char))),
      pathlib__recursive_glob pattern recursive basePath (.err rest) acc =
        (true, acc)) := by
  refine ⟨?_, ?_, ?_, ?_⟩
  · intro hne
    rcases root with _ | l
    · rw [pathlib_glob_model] at hne
      simp at hne
    · rw [pathlib_glob_model] at hne ⊢
      rw [if_neg (by simp)] at hne ⊢
      rcases hres : pathlib__recursive_glob pattern recursive rootStr l []
        with ⟨ok, acc⟩
      rw [hres] at hne
      cases ok
      · simp at hne
      · simp
  · intro hnone
    subst hnone
    rfl
  · intro l hsome hrec hbad
    subst hsome hrec
    rw [pathlib_glob_model]
    rw [if_neg (by simp)]
    have hfail := recursive_glob_fails_of_hasBadDir pattern l rootStr [] hbad
    rcases hres : pathlib__recursive_glob pattern true rootStr l []
      with ⟨ok, acc⟩
    rw [hres] at hfail
    have hok : ok = false := hfail
    subst hok
    rfl
  · intro basePath rest acc
    exact recursive_glob_err pattern recursive basePath rest acc

theorem glob_aborts_on_opendir_failure_witness :
    (none : Option FSListing) = none ∧
    pathlib_glob_model true ['r'] (none : Option FSListing) ['*'] true =
      ([], .eOSError) :=
  ⟨rfl, (glob_aborts_on_opendir_failure ['r'] none ['*'] true).2.1 rfl⟩

/-- Provenance of a walk result: `FileMatch pattern recursive l base p` holds
when `p` is the parse of `base "/" name` for a non-dot, non-directory entry
`name` somewhere in `l` (descending only into listable, non-dot directories,
and only when `recursive` is set) whose name matches the pattern. -/
inductive FileMatch (pattern : List Char) (recursive : Bool) :
    FSListing → List Char → List (List Char) → Prop where
  | here {name : List Char} {rest : FSListing} {base : List Char} :
      isDot name = false → pathlib__fnmatch pattern name = true →
      FileMatch pattern recursive (.cons (.file name) rest) base
        (pathlib_from_str (base ++ '/' :: name))
  | deeper {name : List Char} {sub rest : FSListing} {base : List Char}
      {p : List (List Char)} :
      isDot name = false → recursive = true →
      FileMatch pattern recursive sub (base ++ '/' :: name) p →
      FileMatch pattern recursive (.cons (.dirOk name sub) rest) base p
  | there {e : FSEntry} {rest : FSListing} {base : List Char}
      {p : List (List Char)} :
      FileMatch pattern recursive rest base p →
      FileMatch pattern recursive (.cons e rest) base p

theorem recursive_glob_mem (pattern : List Char) (recursive : Bool) :
    ∀ (l : FSListing) (basePath : List Char) (acc : List (List (List Char)))
      (p : List (List Char)),
      p ∈ (pathlib__recursive_glob pattern recursive basePath l acc).2 →
      p ∈ acc ∨ FileMatch pattern recursive l basePath p := by
  intro l
  induction l using hasBadDir.induct with
  | case1 =>
    intro basePath acc p hp
    rw [pathlib__recursive_glob] at hp
    exact Or.inl hp
  | case2 e rest ihm ih =>
    intro basePath acc p hp
    rcases e with name | ⟨name, sub⟩ | name | name
    · rw [pathlib__recursive_glob] at hp
      simp only [FSEntry.name] at hp
      by_cases hdot : isDot name
      · rw [if_pos hdot] at hp
        rcases ih basePath acc p hp with h | h
        · exact Or.inl h
        · exact Or.inr (.there h)
      · rw [if_neg hdot] at hp
        by_cases hmt : pathlib__fnmatch pattern name = true
        · rw [if_pos hmt] at hp
          rcases ih basePath _ p hp with h | h
          · rcases List.mem_append.mp h with h | h
            · exact Or.inl h
            · refine Or.inr ?_
              have hpe : p = pathlib_from_str (basePath ++ '/' :: name) := by
                simpa using h
              subst hpe
              exact .here (by simpa using hdot) hmt
          · exact Or.inr (.there h)
        · rw [if_neg hmt] at hp
          rcases ih basePath acc p hp with h | h
          · exact Or.inl h
          · exact Or.inr (.there h)
    · rw [pathlib__recursive_glob] at hp
      simp only [FSEntry.name] at hp
      by_cases hdot : isDot name
      · rw [if_pos hdot] at hp
        rcases ih basePath acc p hp with h | h
        · exact Or.inl h
        · exact Or.inr (.there h)
      · rw [if_neg hdot] at hp
        by_cases hrec : recursive = true
        · rw [if_pos hrec] at hp
          rcases hres : pathlib__recursive_glob pattern recursive
              (basePath ++ '/' :: name) sub acc with ⟨ok, acc2⟩
          rw [hres] at hp
          cases ok
          · simp only at hp
            rcases ihm (basePath ++ '/' :: name) acc p
                (by rw [hres]; exact hp) with h | h
            · exact Or.inl h
            · exact Or.inr (.deeper (by simpa using hdot) hrec h)
          · simp only at hp
            rcases ih basePath acc2 p hp with h | h
            · have := ihm (basePath ++ '/' :: name) acc p (by rw [hres]; exact h)
              rcases this with h2 | h2
              · exact Or.inl h2
              · exact Or.inr (.deeper (by simpa using hdot) hrec h2)
            · exact Or.inr (.there h)
        · rw [if_neg hrec] at hp
          rcases ih basePath acc p hp with h | h
          · exact Or.inl h
          · exact Or.inr (.there h)
    · rw [pathlib__recursive_glob] at hp
      simp only [FSEntry.name] at hp
      by_cases hdot : isDot name
      · rw [if_pos hdot] at hp
        rcases ih basePath acc p hp with h | h
        · exact Or.inl h
        · exact Or.inr (.there h)
      · rw [if_neg hdot] at hp
        by_cases hrec : recursive = true
        · rw [if_pos hrec] at hp
          exact Or.inl hp
        · rw [if_neg hrec] at hp
          rcases ih basePath acc p hp with h | h
          · exact Or.inl h
          · exact Or.inr (.there h)
    · rw [pathlib__recursive_glob] at hp
      simp only [FSEntry.name] at hp
      by_cases hdot : isDot name
      · rw [if_pos hdot] at hp
        rcases ih basePath acc p hp with h | h
        · exact Or.inl h
        · exact Or.inr (.there h)
      · rw [if_neg hdot] at hp
        rcases ih basePath acc p hp with h | h
        · exact Or.inl h
        · exact Or.inr (.there h)
  | case3 rest =>
    intro basePath acc p hp
    rw [recursive_glob_err] at hp
    exact Or.inl hp

/-- C6: directories are never tested against the pattern and never appear in
the results: every Path returned by a walk is the parse of `base "/" name`
for a non-directory entry of the traversed tree whose base name matched the
pattern (directories are only descended into, and only when `recursive` is
set). -/
theorem glob_results_are_matched_files (rootIsDir : Bool)
    (rootStr : List Char) (root : Option FSListing) (pattern : List Char)
    (recursive : Bool) :
    ∀ p ∈ (pathlib_glob_model rootIsDir rootStr root pattern recursive).1,
      ∃ l, root = some l ∧ FileMatch pattern recursive l rootStr p := by
  intro p hp
  rcases root with _ | l
  · rcases rootIsDir with _ | _ <;> simp [pathlib_glob_model] at hp
  · refine ⟨l, rfl, ?_⟩
    rcases rootIsDir with _ | _
    · simp [pathlib_glob_model] at hp
    · rw [pathlib_glob_model] at hp
      rw [if_neg (by simp)] at hp
      rcases hres : pathlib__recursive_glob pattern recursive rootStr l []
        with ⟨ok, acc⟩
      rw [hres] at hp
      cases ok
      · simp at hp
      · simp only at hp
        have := recursive_glob_mem pattern recursive l rootStr [] p
          (by rw [hres]; exact hp)
        rcases this with h | h
        · simp at h
        · exact h

theorem glob_results_are_matched_files_witness :
    (pathlib_from_str (['r'] ++ '/' :: ['a']) ∈
      (pathlib_glob_model true ['r']
        (some (.cons (.file ['a']) .nil)) ['*'] false).1) ∧
    ∃ l, (some (FSListing.cons (.file ['a']) .nil) : Option FSListing) =
        some l ∧
      FileMatch ['*'] false l ['r'] (pathlib_from_str (['r'] ++ '/' :: ['a'])) := by
  have hfn : pathlib__fnmatch ['*'] ['a'] = true := fnmatch_star_any ['a']
  have hglob : pathlib__recursive_glob ['*'] false ['r']
      (.cons (.file ['a']) .nil) [] =
      (true, [pathlib_from_str (['r'] ++ '/' :: ['a'])]) := by
    rw [pathlib__recursive_glob]
    rw [if_neg (by decide), if_pos hfn]
    rw [pathlib__recursive_glob]
    simp
  have hmem : pathlib_from_str (['r'] ++ '/' :: ['a']) ∈
      (pathlib_glob_model true ['r']
        (some (.cons (.file ['a']) .nil)) ['*'] false).1 := by
    rw [pathlib_glob_model]
    rw [if_neg (by simp), hglob]
    simp
  exact ⟨hmem, glob_results_are_matched_files true ['r']
    (some (.cons (.file ['a']) .nil)) ['*'] false
    (pathlib_from_str (['r'] ++ '/' :: ['a'])) hmem⟩

end PathlibH
